import Mathlib

/-!
Shallow embedding of the pyret repository (spiketools.py and stimulustools.py)
and proofs about its specified behaviour.

Numeric modelling conventions:
* Python floats are modelled as exact rationals (`ℚ`) wherever the code only
  performs field arithmetic and comparisons; the Gaussian filter of `estfr`
  needs the exponential function and is modelled over `ℝ`.
* Trial / condition indices (the second column of a spike array) are modelled
  as integers (`ℤ`), per the data model.
* Fallible code (numpy reductions of empty arrays, Python sequence indexing)
  returns `Except PyErr`.
-/

/-- Errors surfaced by the embedded Python code.
`invalidInput` stands for the ValueError numpy raises when reducing an empty
sequence (the design's error taxonomy names this case InvalidInputError);
`indexError` is Python's IndexError from out-of-range sequence indexing;
`attributeError` is Python's AttributeError from accessing a missing attribute;
`configurationError` is the taxonomy's name for a malformed-threshold error —
no code path in the source ever produces it. -/
inductive PyErr where
  | invalidInput
  | indexError
  | attributeError
  | configurationError
  deriving DecidableEq

/-- Turn an optional value into an `Except`, raising `e` on `none`
(used for numpy reductions such as `np.max` that raise on empty input). -/
def ofOption {α : Type} (e : PyErr) : Option α → Except PyErr α
  | some a => Except.ok a
  | none => Except.error e

/-- `np.arange(start, stop, step)` over rationals: `start, start+step, …`,
with length `⌈(stop-start)/step⌉` (numpy's length formula for a positive
step; for nonpositive progress the list is empty). -/
def arangeQ (start stop step : ℚ) : List ℚ :=
  (List.range (⌈(stop - start) / step⌉).toNat).map fun (k : ℕ) => start + (k : ℚ) * step

/-- `np.arange(start, stop)` over integers (unit step): `start, …, stop-1`. -/
def arangeZ (start stop : ℤ) : List ℤ :=
  (List.range (stop - start).toNat).map fun (k : ℕ) => start + (k : ℤ)

/-- `np.arange(start, stop, step)` over naturals. -/
def arangeN (start stop step : ℕ) : List ℕ :=
  (List.range ((stop - start + step - 1) / step)).map fun k => start + k * step

/-- `np.diff`: consecutive differences. -/
def npDiff (l : List ℚ) : List ℚ :=
  List.zipWith (fun a b => b - a) l l.tail

/-- `np.mean`: arithmetic mean (the empty-list corner, where numpy produces a
NaN warning, is never exercised by the claims; it evaluates to `0/0 = 0`). -/
def npMean (l : List ℚ) : ℚ :=
  l.sum / l.length

/-- `np.histogram(data, bins=edges)` bin counts: bin `i` counts the data in
`[edges_i, edges_{i+1})`; the final bin is closed on the right. -/
def histogramBins {α : Type} [LinearOrder α] (data : List α) : List α → List ℕ
  | [] => []
  | [_] => []
  | e1 :: e2 :: rest =>
    match rest with
    | [] => [data.countP fun x => decide (e1 ≤ x) && decide (x ≤ e2)]
    | _ :: _ =>
      (data.countP fun x => decide (e1 ≤ x) && decide (x < e2)) ::
        histogramBins data (e2 :: rest)

/-- `np.histogram` with an explicit edge array: the numpy of the targeted era
indexes `bins[-1]`, raising on an empty edge array, and otherwise returns the
bin counts (an edge array of size one yields zero bins). -/
def npHistogram {α : Type} [LinearOrder α] (data : List α) (edges : List α) :
    Except PyErr (List ℕ) :=
  if edges.isEmpty then Except.error PyErr.indexError
  else Except.ok (histogramBins data edges)

/-- spiketools.binspikes: bin spike times.  If no time axis is given one is
built from `tmax` (itself defaulted to `ceil(max(spikeTimes))` when absent —
Python's `if not tmax` also treats `tmax == 0` as absent); counts are
histogrammed over the axis, bin centers are the left edges shifted by half the
mean edge spacing, and counts are normalised by `numTrials`. -/
def binspikes (spk : List ℚ) (tmax : Option ℚ) (binsize : ℚ)
    (time : Option (List ℚ)) (numTrials : ℚ) :
    Except PyErr (List ℚ × List ℚ) := do
  let time ← match time with
    | some t => Except.ok t
    | none => do
        let tm ← match tmax with
          | none => do
              let mx ← ofOption PyErr.invalidInput spk.max?
              Except.ok ((⌈mx⌉ : ℤ) : ℚ)
          | some t =>
              if t = 0 then do
                let mx ← ofOption PyErr.invalidInput spk.max?
                Except.ok ((⌈mx⌉ : ℤ) : ℚ)
              else Except.ok t
        Except.ok (arangeQ 0 (tm + binsize) binsize)
  let bspk ← npHistogram spk time
  let tax := time.dropLast.map fun t => t + (1 / 2) * npMean (npDiff time)
  Except.ok (bspk.map fun (c : ℕ) => (c : ℚ) / numTrials, tax)

/-- spiketools.spikingevent: a detected firing event; `spikes` is the
(n × 2) array of (time, trial index) rows. -/
structure spikingevent where
  start : ℚ
  stop : ℚ
  spikes : List (ℚ × ℤ)
  deriving DecidableEq

/-- spikingevent.__eq__: equality of events compares only start and stop. -/
def spikingevent.eq (a b : spikingevent) : Bool :=
  decide (a.start = b.start) && decide (a.stop = b.stop)

/-- spikingevent.trialCounts: histogram of the trial-index column with edges
`np.arange(min(trials), max(trials))` (`np.min` / `np.max` raise on an empty
array). -/
def spikingevent.trialCounts (e : spikingevent) : Except PyErr (List ℕ) := do
  let trials := e.spikes.map Prod.snd
  let mn ← ofOption PyErr.invalidInput trials.min?
  let mx ← ofOption PyErr.invalidInput trials.max?
  npHistogram trials (arangeZ mn mx)

/-- spikingevent.eventStats: the source body is
`counts = self.eventCounts()` followed by `return mean(counts), std(counts)`,
but the class defines no method `eventCounts` (the per-trial counter is
`trialCounts`), so the attribute lookup raises AttributeError before anything
is computed. -/
def spikingevent.eventStats (_e : spikingevent) : Except PyErr (ℚ × ℚ) :=
  Except.error PyErr.attributeError

/-- `np.unique` values: the distinct elements of `l` in ascending order. -/
def sortedUnique (l : List ℤ) : List ℤ :=
  List.insertionSort (· ≤ ·) l.dedup

/-- Time of the first row of `l` carrying trial index `v` (the spike time at
the first-occurrence index that `np.unique(·, return_index=True)` reports). -/
def firstOcc (l : List (ℚ × ℤ)) (v : ℤ) : ℚ :=
  match l.find? fun s => s.2 == v with
  | some s => s.1
  | none => 0

/-- `firstOcc` on an event's spike array. -/
def firstOccTime (e : spikingevent) (v : ℤ) : ℚ :=
  firstOcc e.spikes v

/-- spikingevent.ttfs: `np.unique(spikes[:,1], return_index=True)` yields the
sorted distinct trial labels together with the index of each label's first
occurrence in the array; the method returns `spikes[indices, 0]`. -/
def spikingevent.ttfs (e : spikingevent) : List ℚ :=
  let trials := e.spikes.map Prod.snd
  (sortedUnique trials).map fun v => (e.spikes.map Prod.fst).getD (trials.indexOf v) 0

/-- The specification's words for `timeToFirstSpike()`: for each distinct
trial index present, the earliest spike time among that trial's spikes. -/
def ttfsSpec (e : spikingevent) : List ℚ :=
  (sortedUnique (e.spikes.map Prod.snd)).map fun v =>
    ((((e.spikes.filter fun s => s.2 == v).map Prod.fst).min?).getD 0)

/-- `np.argsort`: the indices that sort `l` ascending.  Modelled with a stable
sort; numpy's default introsort agrees with it whenever the keys compared are
distinct (the only situation any theorem below relies on). -/
def npArgsort (l : List ℚ) : List ℕ :=
  List.insertionSort (fun i j => l.getD i 0 ≤ l.getD j 0) (List.range l.length)

/-- spikingevent.sort, step 1: the distinct trial labels
(`np.unique(self.spikes[:,1], ...)` values). -/
def uniqTrials (e : spikingevent) : List ℤ :=
  sortedUnique (e.spikes.map Prod.snd)

/-- spikingevent.sort, step 1 continued: the first-occurrence index of each
distinct trial label (the `return_index` output of `np.unique`). -/
def trialIndices (e : spikingevent) : List ℕ :=
  (uniqTrials e).map fun v => (e.spikes.map Prod.snd).indexOf v

/-- spikingevent.sort, step 2 input: `self.spikes[trialIndices, 0]`, the spike
time at each trial's first-occurrence row. -/
def firstTimes (e : spikingevent) : List ℚ :=
  (trialIndices e).map fun i => (e.spikes.map Prod.fst).getD i 0

/-- spikingevent.sort, steps 2–3: the `sortedtrials` array
(`self.spikes[trialIndices[sortedIndices], 1]` with
`sortedIndices = np.argsort(self.spikes[trialIndices, 0])`). -/
def sortedTrials (e : spikingevent) : List ℤ :=
  (npArgsort (firstTimes e)).map fun j =>
    (e.spikes.map Prod.snd).getD ((trialIndices e).getD j 0) 0

/-- spikingevent.sort: starting from a copy of the spike array, the source
loops `for idx in range(sortedtrials.size)` and rewrites the trial column of
every row whose original trial equals `sortedtrials[idx]` to `idx + 1`.
Each fold step is one loop iteration (masks are computed against the original
array, writes go to the accumulator, spike times are never written). -/
def spikingevent.sort (e : spikingevent) : List (ℚ × ℤ) :=
  ((List.range (sortedTrials e).length).zip (sortedTrials e)).foldl
    (fun acc iv =>
      (e.spikes.zip acc).map fun oc =>
        if oc.1.2 = iv.2 then (oc.2.1, (iv.1 : ℤ) + 1) else oc.2)
    e.spikes

/-- Trial index of row `i` of an event's spike array. -/
def trialAt (e : spikingevent) (i : ℕ) : ℤ :=
  (e.spikes.map Prod.snd).getD i 0

/-- Trial index of row `i` of `spikingevent.sort`'s output. -/
def labelAt (e : spikingevent) (i : ℕ) : ℤ :=
  ((spikingevent.sort e).map Prod.snd).getD i 0

/-- Number of distinct trial labels appearing in an event. -/
def numDistinctTrials (e : spikingevent) : ℤ :=
  ((e.spikes.map Prod.snd).dedup.length : ℤ)

/-- Whether the rate signal is at or below the low-rate floor at index `i`. -/
def lowAt {ρ : Type} [LinearOrder ρ] (psth : List ρ) (thr1 : ρ) (i : ℕ) : Bool :=
  match psth.get? i with
  | some r => decide (r ≤ thr1)
  | none => false

/-- `np.where((psth <= threshold[1]) & (tax < peak))`: the indices, in
ascending order, at which the rate is at or below the floor and the time axis
is strictly before the peak time (`psth` and `tax` are aligned 1:1). -/
def lowBefore {ρ : Type} [LinearOrder ρ] (tax : List ℚ) (psth : List ρ)
    (thr1 : ρ) (p : ℚ) : List ℕ :=
  (List.range tax.length).filter fun i =>
    match tax.get? i with
    | some t => lowAt psth thr1 i && decide (t < p)
    | none => false

/-- `np.where((psth <= threshold[1]) & (tax > peak))`. -/
def lowAfter {ρ : Type} [LinearOrder ρ] (tax : List ℚ) (psth : List ρ)
    (thr1 : ρ) (p : ℚ) : List ℕ :=
  (List.range tax.length).filter fun i =>
    match tax.get? i with
    | some t => lowAt psth thr1 i && decide (p < t)
    | none => false

/-- The (start, stop) window detectevents computes for one peak:
`tax[0] if startIndices.size == 0 else tax[np.max(startIndices)]` and
`tax[-1] if stopIndices.size == 0 else tax[np.min(stopIndices)]`. -/
def eventWindow {ρ : Type} [LinearOrder ρ] (tax : List ℚ) (psth : List ρ)
    (thr1 : ρ) (p : ℚ) : ℚ × ℚ :=
  let starttime := match (lowBefore tax psth thr1 p).max? with
    | none => tax.headD 0
    | some i => tax.getD i 0
  let stoptime := match (lowAfter tax psth thr1 p).min? with
    | none => (tax.getLast?).getD 0
    | some i => tax.getD i 0
  (starttime, stoptime)

/-- The spiking event detectevents constructs for one peak: the window above
plus the pooled spikes with `start <= time < stop`. -/
def mkEvent {ρ : Type} [LinearOrder ρ] (tax : List ℚ) (psth : List ρ)
    (thr1 : ρ) (spk : List (ℚ × ℤ)) (p : ℚ) : spikingevent :=
  let w := eventWindow tax psth thr1 p
  { start := w.1, stop := w.2,
    spikes := spk.filter fun s => decide (w.1 ≤ s.1) && decide (s.1 < w.2) }

/-- One iteration of detectevents' per-peak loop:
`if not events or not (events[-1] == myEvent): events.append(myEvent)`. -/
def eventStep {ρ : Type} [LinearOrder ρ] (tax : List ℚ) (psth : List ρ)
    (thr1 : ρ) (spk : List (ℚ × ℤ)) (events : List spikingevent) (p : ℚ) :
    List spikingevent :=
  let myEvent := mkEvent tax psth thr1 spk p
  match events.getLast? with
  | none => events ++ [myEvent]
  | some last => if spikingevent.eq last myEvent then events else events ++ [myEvent]

/-- detectevents' per-peak loop over the detected peak times. -/
def detecteventsLoop {ρ : Type} [LinearOrder ρ] (tax : List ℚ) (psth : List ρ)
    (thr1 : ρ) (spk : List (ℚ × ℤ)) (peaks : List ℚ) : List spikingevent :=
  peaks.foldl (eventStep tax psth thr1 spk) []

/-- `np.convolve(a, b, mode='full')`: raises a ValueError when either input
is empty (numpy: a/v cannot be empty), and otherwise returns
`c[n] = Σ_k a[k] * b[n-k]`, of length `len a + len b - 1`. -/
def convolveFull (a b : List ℝ) : Except PyErr (List ℝ) :=
  if a.isEmpty || b.isEmpty then Except.error PyErr.invalidInput
  else
    Except.ok ((List.range (a.length + b.length - 1)).map fun n =>
      ((List.range (n + 1)).map fun k => a.getD k 0 * b.getD (n - k) 0).sum)

/-- spiketools.estfr: smooth binned counts into a firing-rate estimate with a
normalised Gaussian filter sampled at the axis spacing (`filt.size / 2` is
Python 2 integer division), full convolution, a centered window of the
signal's length, and division by the bin spacing.  The convolution raises
when the filter or the binned counts are empty (as on a degenerate one-point
time axis), so the estimate is fallible. -/
noncomputable def estfr (tax : List ℚ) (bspk : List ℚ) (sigma : ℚ) :
    Except PyErr (List ℝ) := do
  let dt : ℚ := npMean (npDiff tax)
  let tau : List ℚ := arangeQ (-(5 * sigma)) (5 * sigma) dt
  let filtRaw : List ℝ := tau.map fun t => Real.exp (-(1 / 2) * ((t / sigma : ℚ) : ℝ) ^ 2)
  let filt : List ℝ := filtRaw.map fun x => x / filtRaw.sum
  let size : ℕ := filt.length / 2
  let conv ← convolveFull filt (bspk.map fun (c : ℚ) => (c : ℝ))
  Except.ok (((conv.drop size).take tax.length).map fun r => r / (dt : ℝ))

/-- Modelled from the spec: the PeakDetector collaborator (the imported
peakdet module, not part of this repository).  Classic valley-to-peak
delta-threshold lookahead detection: running extrema are tracked and a local
maximum (resp. minimum) is emitted once the signal has fallen (resp. risen)
by more than `delta` from it; maxima are returned with their positions on the
x axis, in ascending x order, as the first component. -/
def peakdet {ρ : Type} [LinearOrderedField ρ] (v : List ρ) (delta : ρ)
    (x : List ℚ) : List (ℚ × ρ) × List (ℚ × ρ) :=
  let final := (x.zip v).foldl
    (fun st xv =>
      let (maxtab, mintab, mx, mn, lookformax) := st
      let mx := match mx with
        | none => some xv
        | some m => if m.2 < xv.2 then some xv else some m
      let mn := match mn with
        | none => some xv
        | some m => if xv.2 < m.2 then some xv else some m
      if lookformax then
        match mx with
        | some m =>
            if xv.2 < m.2 - delta then (maxtab ++ [m], mintab, mx, some xv, false)
            else (maxtab, mintab, mx, mn, lookformax)
        | none => (maxtab, mintab, mx, mn, lookformax)
      else
        match mn with
        | some m =>
            if m.2 + delta < xv.2 then (maxtab, mintab ++ [m], some xv, mn, true)
            else (maxtab, mintab, mx, mn, lookformax)
        | none => (maxtab, mintab, mx, mn, lookformax))
    (([], [], none, none, true) :
      List (ℚ × ρ) × List (ℚ × ρ) × Option (ℚ × ρ) × Option (ℚ × ρ) × Bool)
  (final.1, final.2.1)

/-- spiketools.detectevents: bin the pooled spikes (`numTrials` is the largest
trial index), estimate the rate with `sigma = 0.005`, detect peaks with
`delta = threshold[0]`, then run the per-peak segmentation loop.  Sequence
indexing of `threshold` is explicit: `threshold[0]` is evaluated at the
peakdet call, and `threshold[1]` inside the loop body — hoisted here to a
single lookup taken only when at least one peak exists, which is equivalent
because the lookup is pure and every iteration performs it. -/
noncomputable def detectevents (spk : List (ℚ × ℤ)) (threshold : List ℝ) :
    Except PyErr (List ℚ × List ℝ × List ℚ × List spikingevent) := do
  let numTrials ← ofOption PyErr.invalidInput ((spk.map Prod.snd).max?)
  let (bspk, tax) ← binspikes (spk.map Prod.fst) none (1 / 100) none (numTrials : ℚ)
  let psth ← estfr tax bspk (1 / 200)
  let delta ← ofOption PyErr.indexError (threshold.get? 0)
  let maxtab := (peakdet psth delta tax).1
  match maxtab with
  | [] => Except.ok (tax, psth, bspk, [])
  | _ :: _ => do
      let thr1 ← ofOption PyErr.indexError (threshold.get? 1)
      Except.ok (tax, psth, bspk, detecteventsLoop tax psth thr1 spk (maxtab.map Prod.fst))

/-- `np.interp` at a single point against the polyline `pts`
(clamped to the end values outside the range). -/
def interpAt (xi : ℚ) : List (ℚ × ℚ) → ℚ
  | [] => 0
  | [pt] => pt.2
  | p0 :: p1 :: rest =>
    if xi ≤ p0.1 then p0.2
    else if xi ≤ p1.1 then p0.2 + (p1.2 - p0.2) * (xi - p0.1) / (p1.1 - p0.1)
    else interpAt xi (p1 :: rest)

/-- `np.interp(x, xp, fp)`: piecewise-linear interpolation. -/
def npInterp (x xp fp : List ℚ) : List ℚ :=
  x.map fun xi => interpAt xi (xp.zip fp)

/-- stimulustools.upsamplestim: repeat every stimulus sample `upfact` times
along the (last) axis; when a time axis is given it is upsampled by linear
interpolation, with the source's repair of a flat final timestamp. -/
def upsamplestim (stim : List ℚ) (upfact : ℕ) (time : Option (List ℚ)) :
    List ℚ × Option (List ℚ) :=
  let stimUs := stim.flatMap fun v => List.replicate upfact v
  let timeUs := match time with
    | none => none
    | some t =>
        let x := arangeQ 0 (upfact * t.length) 1
        let xp := arangeQ 0 (upfact * t.length) upfact
        let tu := npInterp x xp t
        some (if tu.getD (tu.length - 2) 0 = tu.getD (tu.length - 1) 0 then
            tu.dropLast ++ [tu.getD (tu.length - 1) 0 + npMean (npDiff tu)]
          else tu)
  (stimUs, timeUs)

/-- stimulustools.downsamplestim: keep every `downfact`-th sample
(`np.take(stim, np.arange(0, len, downfact))`); a given time axis is strided
the same way (`time[::downfact]`). -/
def downsamplestim (stim : List ℚ) (downfact : ℕ) (time : Option (List ℚ)) :
    List ℚ × Option (List ℚ) :=
  ((arangeN 0 stim.length downfact).map fun i => stim.getD i 0,
    time.map fun t => (arangeN 0 t.length downfact).map fun i => t.getD i 0)

/-- C9: for the empty spike-time sequence, calling binspikes with neither
`tmax` nor a time axis supplied fails — `np.max` of the empty sequence raises
(InvalidInputError in the design's taxonomy) — and no partial result is
returned. -/
theorem binspikes_empty_no_tmax_fails :
    binspikes [] none (1 / 100) none 1 = Except.error PyErr.invalidInput := rfl

/-- C4: two spiking events compare equal exactly when their start times and
stop times agree; in particular two events with identical (start, stop) but
different spike payloads compare equal. -/
theorem spikingevent_eq_iff_start_stop :
    (∀ a b : spikingevent,
        spikingevent.eq a b = true ↔ a.start = b.start ∧ a.stop = b.stop) ∧
      spikingevent.eq ⟨0, 1, [(1 / 2, 1)]⟩ ⟨0, 1, []⟩ = true := by
  constructor
  · intro a b
    simp [spikingevent.eq]
  · decide

/-- C3 (code bug): `eventStats` never returns the (mean, std) of the trial
counts — its body calls the nonexistent method `eventCounts`, so every call
raises AttributeError; evaluated here at a concrete event. -/
theorem eventStats_always_attribute_failure :
    spikingevent.eventStats ⟨0, 1, [(1 / 2, 1)]⟩ = Except.error PyErr.attributeError := rfl

theorem flatMap_replicate_length (stim : List ℚ) (k : ℕ) :
    (stim.flatMap fun v => List.replicate k v).length = k * stim.length := by
  induction stim with
  | nil => simp
  | cons a tl ih => simp [ih, Nat.mul_succ, Nat.add_comm]

theorem flatMap_replicate_getD (k : ℕ) (hk : 0 < k) (stim : List ℚ) :
    ∀ j, j < stim.length →
      (stim.flatMap fun v => List.replicate k v).getD (j * k) 0 = stim.getD j 0 := by
  induction stim with
  | nil => intro j hj; simp at hj
  | cons a tl ih =>
      intro j hj
      cases j with
      | zero =>
          simp only [List.flatMap_cons, Nat.zero_mul]
          cases k with
          | zero => exact absurd hk (by simp)
          | succ m => simp [List.replicate_succ]
      | succ j =>
          have hlt : j < tl.length := by simpa using hj
          have hlen : (List.replicate k a).length = k := List.length_replicate ..
          simp only [List.flatMap_cons]
          rw [Nat.succ_mul, Nat.add_comm]
          rw [List.getD_append_right]
          · rw [hlen, Nat.add_sub_cancel_left]
            · exact ih j hlt
          · rw [hlen]; exact Nat.le_add_right _ _

theorem arangeN_ceil (k n : ℕ) (hk : 0 < k) : (k * n + k - 1) / k = n := by
  have h1 : k * n + k - 1 = (k - 1) + n * k := by
    rw [Nat.mul_comm]; omega
  rw [h1, Nat.add_mul_div_right _ _ hk, Nat.div_eq_of_lt (by omega)]
  omega

theorem map_getD_range (l : List ℚ) :
    (List.range l.length).map (fun i => l.getD i 0) = l := by
  apply List.ext_getElem
  · simp
  · intro i h1 h2
    simp [List.getD_eq_getElem?_getD, List.getElem?_eq_getElem h2]

/-- C10: for every stimulus array and positive factor `k`, downsampling by
`k` after upsampling by `k` (no time axis supplied) returns the original
stimulus array exactly. -/
theorem upsample_downsample_roundtrip (stim : List ℚ) (k : ℕ) (hk : 0 < k) :
    (downsamplestim (upsamplestim stim k none).1 k none).1 = stim := by
  simp only [upsamplestim, downsamplestim]
  rw [flatMap_replicate_length]
  have hidx : arangeN 0 (k * stim.length) k = (List.range stim.length).map fun j => j * k := by
    simp only [arangeN, Nat.sub_zero, Nat.zero_add, arangeN_ceil k stim.length hk]
  rw [hidx, List.map_map]
  have : ∀ j ∈ List.range stim.length,
      ((fun i => (stim.flatMap fun v => List.replicate k v).getD i 0) ∘ fun j => j * k) j
        = stim.getD j 0 := by
    intro j hj
    exact flatMap_replicate_getD k hk stim j (List.mem_range.mp hj)
  rw [List.map_congr_left this, map_getD_range]

/-- Witness for C10 at `stim = [3,5,7]`, `k = 2`. -/
theorem upsample_downsample_roundtrip_witness : (0 < 2) ∧ (downsamplestim (upsamplestim [3,5,7] 2 none).1 2 none).1 = [3,5,7] :=
  ⟨by decide, upsample_downsample_roundtrip [3,5,7] 2 (by decide)⟩

theorem getD_indexOf_firstOcc (l : List (ℚ × ℤ)) (v : ℤ) (hv : v ∈ l.map Prod.snd) :
    (l.map Prod.fst).getD ((l.map Prod.snd).indexOf v) 0 = firstOcc l v := by
  induction l with
  | nil => simp at hv
  | cons s tl ih =>
      by_cases h : s.2 = v
      · simp [firstOcc, List.indexOf_cons, h, List.find?_cons_of_pos]
      · have hv' : v ∈ tl.map Prod.snd := by
          rw [List.map_cons] at hv
          rcases List.mem_cons.mp hv with h1 | h1
          · exact absurd h1.symm h
          · exact h1
        have hne : (s.2 == v) = false := by simpa using h
        simp only [List.map_cons, List.indexOf_cons, hne, cond_false]
        rw [List.getD_cons_succ]
        rw [ih hv']
        simp [firstOcc, List.find?_cons_of_neg, hne]

/-- C5 (amended): `ttfs` returns, for each distinct trial index present (in
ascending trial order), the spike time of that trial's first-occurring row in
the spike array — the earliest spike time only when each trial's rows are
listed in nondecreasing time order — and returns no value for trials with no
spikes in the event. -/
theorem ttfs_first_occurrence (e : spikingevent) :
    spikingevent.ttfs e = (sortedUnique (e.spikes.map Prod.snd)).map (firstOccTime e) := by
  unfold spikingevent.ttfs
  apply List.map_congr_left
  intro v hv
  have hmem : v ∈ e.spikes.map Prod.snd := by
    have h1 : v ∈ (e.spikes.map Prod.snd).dedup :=
      (List.Perm.mem_iff (List.perm_insertionSort _ _)).mp hv
    exact List.mem_dedup.mp h1
  exact getD_indexOf_firstOcc e.spikes v hmem

/-- C5 counterexample: for the event with trial-1 spikes at times 5 then 2
(out of time order), `ttfs` returns [5], not the claimed minimum [2] (computed
from the spec's own description `ttfsSpec`). -/
theorem ttfs_not_min_counterexample :
    spikingevent.ttfs ⟨0, 10, [(5, 1), (2, 1)]⟩ = [5] ∧
      ttfsSpec ⟨0, 10, [(5, 1), (2, 1)]⟩ = [2] ∧ (5 : ℚ) ≠ 2 := by
  refine ⟨?_, ?_, by norm_num⟩ <;> decide

theorem maxSpec {α : Type} [LinearOrder α] {l : List α} {a : α} (h : l.max? = some a) :
    a ∈ l ∧ ∀ b ∈ l, b ≤ a := by
  haveI : Std.Antisymm (α := α) (· ≤ ·) := ⟨fun {_ _} h1 h2 => le_antisymm h1 h2⟩
  rw [List.max?_eq_some_iff (fun x => le_refl x) (fun x y => max_choice x y)
    (fun x y z => max_le_iff)] at h
  exact h

theorem minSpec {α : Type} [LinearOrder α] {l : List α} {a : α} (h : l.min? = some a) :
    a ∈ l ∧ ∀ b ∈ l, a ≤ b := by
  haveI : Std.Antisymm (α := α) (· ≤ ·) := ⟨fun {_ _} h1 h2 => le_antisymm h1 h2⟩
  rw [List.min?_eq_some_iff (fun x => le_refl x) (fun x y => min_choice x y)
    (fun x y z => le_min_iff)] at h
  exact h

theorem histogramBins_length {α : Type} [LinearOrder α] (data : List α) :
    ∀ edges : List α, (histogramBins data edges).length = edges.length - 1 := by
  intro edges
  induction edges with
  | nil => rfl
  | cons e1 tl ih =>
      cases tl with
      | nil => rfl
      | cons e2 rest =>
          cases rest with
          | nil => rfl
          | cons e3 rest2 =>
              show (_ :: histogramBins data (e2 :: e3 :: rest2)).length = _
              rw [List.length_cons, ih]
              simp

theorem arangeZ_length (m M : ℤ) : (arangeZ m M).length = (M - m).toNat := by
  unfold arangeZ
  rw [List.length_map, List.length_range]

theorem arangeZ_cons (m M : ℤ) (h : m < M) : arangeZ m M = m :: arangeZ (m + 1) M := by
  unfold arangeZ
  have h1 : (M - m).toNat = (M - (m + 1)).toNat + 1 := by omega
  rw [h1, List.range_succ_eq_map, List.map_cons, List.map_map]
  congr 1
  · simp
  · apply List.map_congr_left
    intro k _
    simp only [Function.comp_apply]
    push_cast
    ring

theorem countP_split_int (m M1 : ℤ) (h : m ≤ M1) (data : List ℤ) :
    data.countP (fun v => decide (m ≤ v) && decide (v ≤ M1)) =
      data.countP (fun v => decide (m ≤ v) && decide (v < m + 1)) +
        data.countP (fun v => decide (m + 1 ≤ v) && decide (v ≤ M1)) := by
  induction data with
  | nil => rfl
  | cons a tl ih =>
      simp only [List.countP_cons, ih, Bool.and_eq_true, decide_eq_true_eq]
      split_ifs <;> omega

theorem histogramBins_arangeZ_sum (data : List ℤ) :
    ∀ n : ℕ, ∀ m M : ℤ, M - m = (n : ℤ) + 2 →
      (histogramBins data (arangeZ m M)).sum =
        data.countP fun v => decide (m ≤ v) && decide (v ≤ M - 1) := by
  intro n
  induction n with
  | zero =>
      intro m M hMm
      have hM : M = m + 2 := by omega
      subst hM
      rw [arangeZ_cons m _ (by omega), arangeZ_cons (m + 1) _ (by omega)]
      have : arangeZ (m + 1 + 1) (m + 2) = [] := by
        unfold arangeZ
        have : (m + 2 - (m + 1 + 1)).toNat = 0 := by omega
        rw [this]; rfl
      rw [this]
      show (histogramBins data [m, m + 1]).sum = _
      simp only [histogramBins, List.sum_cons, List.sum_nil, add_zero]
      have h2 : m + 2 - 1 = m + 1 := by ring
      rw [h2]
  | succ n ih =>
      intro m M hMm
      rw [arangeZ_cons m _ (by omega)]
      have hcons : arangeZ (m + 1) M = (m + 1) :: arangeZ (m + 1 + 1) M :=
        arangeZ_cons _ _ (by omega)
      have hcons2 : arangeZ (m + 1 + 1) M = (m + 1 + 1) :: arangeZ (m + 1 + 1 + 1) M :=
        arangeZ_cons _ _ (by omega)
      rw [hcons, hcons2]
      show ((data.countP fun v => decide (m ≤ v) && decide (v < m + 1)) ::
        histogramBins data ((m + 1) :: (m + 1 + 1) :: arangeZ (m + 1 + 1 + 1) M)).sum = _
      rw [List.sum_cons]
      rw [← hcons2, ← hcons]
      rw [ih (m + 1) M (by omega)]
      rw [countP_split_int m (M - 1) (by omega) data]

/-- C6: for an event whose trial indices span `m < M`, `trialCounts` returns
`M - m - 1` unit bins over edges `[m, M)` and the spikes of the
maximum-indexed trial `M` are not counted in any bin (whenever any bin exists,
the total count is exactly the number of spikes of trials other than `M`). -/
theorem trialCounts_bins_and_max_exclusion (e : spikingevent) (m M : ℤ)
    (hmin : (e.spikes.map Prod.snd).min? = some m)
    (hmax : (e.spikes.map Prod.snd).max? = some M)
    (hlt : m < M) :
    ∃ cs, spikingevent.trialCounts e = Except.ok cs ∧
      (cs.length : ℤ) = M - m - 1 ∧
      (2 ≤ M - m →
        cs.sum = (e.spikes.map Prod.snd).countP fun v => decide (v ≠ M)) := by
  have hne : (arangeZ m M).isEmpty = false := by
    have h1 : (arangeZ m M).length = (M - m).toNat := arangeZ_length m M
    rcases h2 : arangeZ m M with _ | ⟨a, tl⟩
    · rw [h2] at h1
      simp at h1
      omega
    · rfl
  refine ⟨histogramBins (e.spikes.map Prod.snd) (arangeZ m M), ?_, ?_, ?_⟩
  · unfold spikingevent.trialCounts
    simp only [hmin, hmax, ofOption]
    show npHistogram (List.map Prod.snd e.spikes) (arangeZ m M) = _
    unfold npHistogram
    rw [hne]
    rfl
  · rw [histogramBins_length, arangeZ_length]
    omega
  · intro h2
    rw [histogramBins_arangeZ_sum (e.spikes.map Prod.snd) ((M - m).toNat - 2) m M (by omega)]
    apply List.countP_congr
    intro v hv
    have hvm : m ≤ v := (minSpec hmin).2 v hv
    have hvM : v ≤ M := (maxSpec hmax).2 v hv
    simp only [Bool.and_eq_true, decide_eq_true_eq]
    constructor
    · rintro ⟨h3, h4⟩ ; omega
    · intro h3 ; omega

/-- Witness for C6 at an event with trials 1 and 3. -/
theorem trialCounts_bins_and_max_exclusion_witness :
    ((([(0, 1), (0, 3)] : List (ℚ × ℤ)).map Prod.snd).min? = some 1) ∧
      ((([(0, 1), (0, 3)] : List (ℚ × ℤ)).map Prod.snd).max? = some 3) ∧ (1 : ℤ) < 3 ∧
      ∃ cs, spikingevent.trialCounts ⟨0, 1, [(0, 1), (0, 3)]⟩ = Except.ok cs ∧
        (cs.length : ℤ) = 3 - 1 - 1 ∧
        (2 ≤ (3 : ℤ) - 1 →
          cs.sum = (([(0, 1), (0, 3)] : List (ℚ × ℤ)).map Prod.snd).countP fun v =>
            decide (v ≠ 3)) :=
  ⟨by decide, by decide, by decide,
    trialCounts_bins_and_max_exclusion ⟨0, 1, [(0, 1), (0, 3)]⟩ 1 3 (by decide) (by decide) (by decide)⟩

theorem getD_of_lt {α : Type} [Inhabited α] (l : List α) (i : ℕ) (d : α) (h : i < l.length) :
    l.get? i = some (l.getD i d) := by
  rw [List.get?_eq_getElem?, List.getElem?_eq_getElem h, List.getD_eq_getElem l d h]

theorem mem_lowBefore {ρ : Type} [LinearOrder ρ] (tax : List ℚ) (psth : List ρ)
    (thr1 : ρ) (p : ℚ) (i : ℕ) :
    i ∈ lowBefore tax psth thr1 p ↔
      i < tax.length ∧ lowAt psth thr1 i = true ∧ tax.getD i 0 < p := by
  unfold lowBefore
  rw [List.mem_filter, List.mem_range]
  constructor
  · rintro ⟨h1, h2⟩
    refine ⟨h1, ?_⟩
    rw [getD_of_lt tax i 0 h1] at h2
    simpa using h2
  · rintro ⟨h1, h2, h3⟩
    refine ⟨h1, ?_⟩
    rw [getD_of_lt tax i 0 h1]
    rw [List.getD_eq_getElem?_getD] at h3
    simp [h2, h3]

theorem mem_lowAfter {ρ : Type} [LinearOrder ρ] (tax : List ℚ) (psth : List ρ)
    (thr1 : ρ) (p : ℚ) (i : ℕ) :
    i ∈ lowAfter tax psth thr1 p ↔
      i < tax.length ∧ lowAt psth thr1 i = true ∧ p < tax.getD i 0 := by
  unfold lowAfter
  rw [List.mem_filter, List.mem_range]
  constructor
  · rintro ⟨h1, h2⟩
    refine ⟨h1, ?_⟩
    rw [getD_of_lt tax i 0 h1] at h2
    simpa using h2
  · rintro ⟨h1, h2, h3⟩
    refine ⟨h1, ?_⟩
    rw [getD_of_lt tax i 0 h1]
    rw [List.getD_eq_getElem?_getD] at h3
    simp [h2, h3]

theorem sorted_getD_le (tax : List ℚ) (hsort : List.Sorted (· < ·) tax)
    (i j : ℕ) (hij : i ≤ j) (hj : j < tax.length) :
    tax.getD i 0 ≤ tax.getD j 0 := by
  rcases Nat.lt_or_ge i j with h | h
  · have := List.pairwise_iff_get.mp hsort ⟨i, lt_trans h hj⟩ ⟨j, hj⟩ h
    rw [List.getD_eq_getElem tax 0 (lt_trans h hj), List.getD_eq_getElem tax 0 hj]
    exact le_of_lt (by simpa using this)
  · have hij2 : i = j := le_antisymm hij h
    subst hij2
    exact le_refl _

/-- C1: for every peak processed by detectevents' loop (over a strictly
increasing time axis), the constructed event's start time is the latest
time-axis point strictly before the peak at which the rate is at or below
`threshold[1]` — or the first axis point when no such point exists — and the
stop time is the earliest such point strictly after the peak, or the last
axis point when none exists. -/
theorem detectevents_window_characterisation {ρ : Type} [LinearOrder ρ]
    (tax : List ℚ) (psth : List ρ) (thr1 : ρ) (spk : List (ℚ × ℤ)) (p : ℚ)
    (hsort : List.Sorted (· < ·) tax) :
    (((∃ i, i < tax.length ∧ lowAt psth thr1 i = true ∧ tax.getD i 0 < p) →
        ∃ i, i < tax.length ∧ lowAt psth thr1 i = true ∧ tax.getD i 0 < p ∧
          (mkEvent tax psth thr1 spk p).start = tax.getD i 0 ∧
          ∀ j, j < tax.length → lowAt psth thr1 j = true → tax.getD j 0 < p →
            tax.getD j 0 ≤ tax.getD i 0) ∧
      ((¬ ∃ i, i < tax.length ∧ lowAt psth thr1 i = true ∧ tax.getD i 0 < p) →
        (mkEvent tax psth thr1 spk p).start = tax.headD 0)) ∧
    ((∃ i, i < tax.length ∧ lowAt psth thr1 i = true ∧ p < tax.getD i 0) →
        ∃ i, i < tax.length ∧ lowAt psth thr1 i = true ∧ p < tax.getD i 0 ∧
          (mkEvent tax psth thr1 spk p).stop = tax.getD i 0 ∧
          ∀ j, j < tax.length → lowAt psth thr1 j = true → p < tax.getD j 0 →
            tax.getD i 0 ≤ tax.getD j 0) ∧
      ((¬ ∃ i, i < tax.length ∧ lowAt psth thr1 i = true ∧ p < tax.getD i 0) →
        (mkEvent tax psth thr1 spk p).stop = (tax.getLast?).getD 0) := by
  refine ⟨⟨?_, ?_⟩, ?_, ?_⟩
  · rintro ⟨i0, hi0, hlow0, hlt0⟩
    have hmem : i0 ∈ lowBefore tax psth thr1 p :=
      (mem_lowBefore tax psth thr1 p i0).mpr ⟨hi0, hlow0, hlt0⟩
    cases hM : (lowBefore tax psth thr1 p).max? with
    | none =>
        exact absurd (List.max?_eq_none_iff.mp hM) (List.ne_nil_of_mem hmem)
    | some mI =>
        have hspec := maxSpec hM
        have hmemM := (mem_lowBefore tax psth thr1 p mI).mp hspec.1
        refine ⟨mI, hmemM.1, hmemM.2.1, hmemM.2.2, ?_, ?_⟩
        · show (eventWindow tax psth thr1 p).1 = _
          unfold eventWindow
          rw [hM]
        · intro j hj hjlow hjlt
          have hjm : j ∈ lowBefore tax psth thr1 p :=
            (mem_lowBefore tax psth thr1 p j).mpr ⟨hj, hjlow, hjlt⟩
          exact sorted_getD_le tax hsort j mI (hspec.2 j hjm) hmemM.1
  · intro hnex
    have hnil : lowBefore tax psth thr1 p = [] := by
      apply List.eq_nil_iff_forall_not_mem.mpr
      intro i hi
      exact hnex ⟨i, (mem_lowBefore tax psth thr1 p i).mp hi⟩
    show (eventWindow tax psth thr1 p).1 = _
    unfold eventWindow
    rw [hnil]
    rfl
  · rintro ⟨i0, hi0, hlow0, hlt0⟩
    have hmem : i0 ∈ lowAfter tax psth thr1 p :=
      (mem_lowAfter tax psth thr1 p i0).mpr ⟨hi0, hlow0, hlt0⟩
    cases hM : (lowAfter tax psth thr1 p).min? with
    | none =>
        exact absurd (List.min?_eq_none_iff.mp hM) (List.ne_nil_of_mem hmem)
    | some mI =>
        have hspec := minSpec hM
        have hmemM := (mem_lowAfter tax psth thr1 p mI).mp hspec.1
        refine ⟨mI, hmemM.1, hmemM.2.1, hmemM.2.2, ?_, ?_⟩
        · show (eventWindow tax psth thr1 p).2 = _
          unfold eventWindow
          rw [hM]
        · intro j hj hjlow hjlt
          have hjm : j ∈ lowAfter tax psth thr1 p :=
            (mem_lowAfter tax psth thr1 p j).mpr ⟨hj, hjlow, hjlt⟩
          exact sorted_getD_le tax hsort mI j (hspec.2 j hjm) hj
  · intro hnex
    have hnil : lowAfter tax psth thr1 p = [] := by
      apply List.eq_nil_iff_forall_not_mem.mpr
      intro i hi
      exact hnex ⟨i, (mem_lowAfter tax psth thr1 p i).mp hi⟩
    show (eventWindow tax psth thr1 p).2 = _
    unfold eventWindow
    rw [hnil]
    rfl

/-- Witness for C1 on the axis [0,1,2] with rates [0,1,0], floor 0,
peak 3/2. -/
theorem detectevents_window_characterisation_witness :
    List.Sorted (· < ·) ([0, 1, 2] : List ℚ) ∧
      (((∃ i, i < ([0, 1, 2] : List ℚ).length ∧ lowAt ([0, 1, 0] : List ℚ) 0 i = true ∧
            ([0, 1, 2] : List ℚ).getD i 0 < 3 / 2) →
          ∃ i, i < ([0, 1, 2] : List ℚ).length ∧ lowAt ([0, 1, 0] : List ℚ) 0 i = true ∧
            ([0, 1, 2] : List ℚ).getD i 0 < 3 / 2 ∧
            (mkEvent [0, 1, 2] ([0, 1, 0] : List ℚ) 0 [] (3 / 2)).start =
              ([0, 1, 2] : List ℚ).getD i 0 ∧
            ∀ j, j < ([0, 1, 2] : List ℚ).length → lowAt ([0, 1, 0] : List ℚ) 0 j = true →
              ([0, 1, 2] : List ℚ).getD j 0 < 3 / 2 →
              ([0, 1, 2] : List ℚ).getD j 0 ≤ ([0, 1, 2] : List ℚ).getD i 0) ∧
        ((¬ ∃ i, i < ([0, 1, 2] : List ℚ).length ∧ lowAt ([0, 1, 0] : List ℚ) 0 i = true ∧
            ([0, 1, 2] : List ℚ).getD i 0 < 3 / 2) →
          (mkEvent [0, 1, 2] ([0, 1, 0] : List ℚ) 0 [] (3 / 2)).start =
            ([0, 1, 2] : List ℚ).headD 0)) ∧
      ((∃ i, i < ([0, 1, 2] : List ℚ).length ∧ lowAt ([0, 1, 0] : List ℚ) 0 i = true ∧
            3 / 2 < ([0, 1, 2] : List ℚ).getD i 0) →
          ∃ i, i < ([0, 1, 2] : List ℚ).length ∧ lowAt ([0, 1, 0] : List ℚ) 0 i = true ∧
            3 / 2 < ([0, 1, 2] : List ℚ).getD i 0 ∧
            (mkEvent [0, 1, 2] ([0, 1, 0] : List ℚ) 0 [] (3 / 2)).stop =
              ([0, 1, 2] : List ℚ).getD i 0 ∧
            ∀ j, j < ([0, 1, 2] : List ℚ).length → lowAt ([0, 1, 0] : List ℚ) 0 j = true →
              3 / 2 < ([0, 1, 2] : List ℚ).getD j 0 →
              ([0, 1, 2] : List ℚ).getD i 0 ≤ ([0, 1, 2] : List ℚ).getD j 0) ∧
        ((¬ ∃ i, i < ([0, 1, 2] : List ℚ).length ∧ lowAt ([0, 1, 0] : List ℚ) 0 i = true ∧
            3 / 2 < ([0, 1, 2] : List ℚ).getD i 0) →
          (mkEvent [0, 1, 2] ([0, 1, 0] : List ℚ) 0 [] (3 / 2)).stop =
            (([0, 1, 2] : List ℚ).getLast?).getD 0) :=
  ⟨by decide, detectevents_window_characterisation [0, 1, 2] ([0, 1, 0] : List ℚ) 0 [] (3 / 2) (by decide)⟩

theorem chainR_eventStep {ρ : Type} [LinearOrder ρ] (tax : List ℚ) (psth : List ρ)
    (thr1 : ρ) (spk : List (ℚ × ℤ)) (events : List spikingevent) (p : ℚ)
    (h : List.Chain' (fun a b => a.start ≠ b.start ∨ a.stop ≠ b.stop) events) :
    List.Chain' (fun a b => a.start ≠ b.start ∨ a.stop ≠ b.stop)
      (eventStep tax psth thr1 spk events p) := by
  cases hL : events.getLast? with
  | none =>
      have hred : eventStep tax psth thr1 spk events p = events ++ [mkEvent tax psth thr1 spk p] := by
        unfold eventStep
        rw [hL]
      rw [hred, List.getLast?_eq_none_iff.mp hL]
      exact List.chain'_singleton _
  | some last =>
      have hred : eventStep tax psth thr1 spk events p =
          if spikingevent.eq last (mkEvent tax psth thr1 spk p) = true then events
          else events ++ [mkEvent tax psth thr1 spk p] := by
        unfold eventStep
        rw [hL]
      by_cases heq : spikingevent.eq last (mkEvent tax psth thr1 spk p)
      · rw [hred, if_pos heq]
        exact h
      · rw [hred, if_neg heq, List.chain'_append]
        refine ⟨h, List.chain'_singleton _, ?_⟩
        intro x hx y hy
        rw [hL] at hx
        simp at hx hy
        subst hx
        subst hy
        have : ¬ (last.start = (mkEvent tax psth thr1 spk p).start ∧
            last.stop = (mkEvent tax psth thr1 spk p).stop) := by
          intro hc
          apply heq
          unfold spikingevent.eq
          simp [hc.1, hc.2]
        by_cases h1 : last.start = (mkEvent tax psth thr1 spk p).start
        · right; intro h2; exact this ⟨h1, h2⟩
        · left; exact h1

/-- C2: detectevents' per-peak loop appends a newly constructed event only if
the output is empty or the event's (start, stop) differs from the last
appended one; consequently no two consecutive returned events share both
start and stop. -/
theorem detectevents_consecutive_events_distinct {ρ : Type} [LinearOrder ρ] (tax : List ℚ) (psth : List ρ)
    (thr1 : ρ) (spk : List (ℚ × ℤ)) (peaks : List ℚ) :
    List.Chain' (fun a b => a.start ≠ b.start ∨ a.stop ≠ b.stop)
      (detecteventsLoop tax psth thr1 spk peaks) := by
  unfold detecteventsLoop
  have haux : ∀ (acc : List spikingevent),
      List.Chain' (fun a b => a.start ≠ b.start ∨ a.stop ≠ b.stop) acc →
      List.Chain' (fun a b => a.start ≠ b.start ∨ a.stop ≠ b.stop)
        (peaks.foldl (eventStep tax psth thr1 spk) acc) := by
    induction peaks with
    | nil => intro acc h; exact h
    | cons p tl ih =>
        intro acc h
        exact ih _ (chainR_eventStep tax psth thr1 spk acc p h)
  exact haux [] List.chain'_nil

theorem getD_map {α β : Type} (f : α → β) (l : List α) (n : ℕ) (d : β) (e : α)
    (h : n < l.length) : (l.map f).getD n d = f (l.getD n e) := by
  rw [List.getD_eq_getElem _ _ (by simpa using h), List.getElem_map,
    List.getD_eq_getElem _ _ h]

theorem getD_indexOf_self (l : List ℤ) (v : ℤ) (h : v ∈ l) :
    l.getD (l.indexOf v) 0 = v := by
  rw [List.getD_eq_getElem _ _ (List.indexOf_lt_length.mpr h)]
  exact List.getElem_indexOf (List.indexOf_lt_length.mpr h)

theorem nodup_indexOf_getD (l : List ℤ) (h : l.Nodup) (i : ℕ) (hi : i < l.length) :
    l.indexOf (l.getD i 0) = i := by
  induction l generalizing i with
  | nil => simp at hi
  | cons a tl ih =>
      cases i with
      | zero => simp [List.getD_cons_zero]
      | succ i =>
          have hi2 : i < tl.length := by simpa using hi
          rw [List.getD_cons_succ]
          have hmem : tl.getD i 0 ∈ tl := by
            rw [List.getD_eq_getElem _ _ hi2]
            exact List.getElem_mem hi2
          have hne : a ≠ tl.getD i 0 := by
            intro hc
            exact (List.nodup_cons.mp h).1 (hc ▸ hmem)
          rw [List.indexOf_cons]
          have : (a == tl.getD i 0) = false := by simpa using hne
          rw [this]
          simp only [cond_false]
          rw [ih (List.nodup_cons.mp h).2 i hi2]

theorem mem_uniqTrials (e : spikingevent) (v : ℤ) :
    v ∈ uniqTrials e ↔ v ∈ e.spikes.map Prod.snd := by
  unfold uniqTrials sortedUnique
  rw [List.Perm.mem_iff (List.perm_insertionSort _ _)]
  exact List.mem_dedup

theorem nodup_uniqTrials (e : spikingevent) : (uniqTrials e).Nodup := by
  unfold uniqTrials sortedUnique
  exact (List.Perm.nodup_iff (List.perm_insertionSort _ _)).mpr (List.nodup_dedup _)

theorem length_uniqTrials (e : spikingevent) :
    (uniqTrials e).length = (e.spikes.map Prod.snd).dedup.length := by
  unfold uniqTrials sortedUnique
  exact (List.perm_insertionSort _ _).length_eq

theorem firstTimes_length (e : spikingevent) :
    (firstTimes e).length = (uniqTrials e).length := by
  unfold firstTimes trialIndices
  rw [List.length_map, List.length_map]

theorem firstTimes_getD (e : spikingevent) (j : ℕ) (hj : j < (uniqTrials e).length) :
    (firstTimes e).getD j 0 = firstOcc e.spikes ((uniqTrials e).getD j 0) := by
  have hmem : (uniqTrials e).getD j 0 ∈ e.spikes.map Prod.snd := by
    apply (mem_uniqTrials e _).mp
    rw [List.getD_eq_getElem _ _ hj]
    exact List.getElem_mem hj
  unfold firstTimes
  rw [getD_map _ _ j 0 0 (by unfold trialIndices; simpa using hj)]
  unfold trialIndices
  rw [getD_map _ _ j 0 0 hj]
  exact getD_indexOf_firstOcc e.spikes _ hmem

theorem map_getD_range_gen {α : Type} (l : List α) (d : α) :
    (List.range l.length).map (fun i => l.getD i d) = l := by
  apply List.ext_getElem
  · simp
  · intro i h1 h2
    simp [List.getD_eq_getElem?_getD, List.getElem?_eq_getElem h2]

theorem argsort_perm (l : List ℚ) : (npArgsort l).Perm (List.range l.length) :=
  List.perm_insertionSort _ _

theorem argsort_length (l : List ℚ) : (npArgsort l).length = l.length := by
  rw [(argsort_perm l).length_eq, List.length_range]

theorem argsort_mem_lt (l : List ℚ) (j : ℕ) (h : j ∈ npArgsort l) : j < l.length := by
  have := (argsort_perm l).mem_iff.mp h
  simpa using this

theorem argsort_nodup (l : List ℚ) : (npArgsort l).Nodup :=
  ((argsort_perm l).nodup_iff).mpr (List.nodup_range _)

theorem argsort_sorted (l : List ℚ) :
    List.Sorted (fun i j => l.getD i 0 ≤ l.getD j 0) (npArgsort l) := by
  haveI ht : IsTotal ℕ (fun i j => l.getD i 0 ≤ l.getD j 0) :=
    ⟨fun i j => le_total _ _⟩
  haveI htr : IsTrans ℕ (fun i j => l.getD i 0 ≤ l.getD j 0) :=
    ⟨fun i j k h1 h2 => le_trans h1 h2⟩
  exact List.sorted_insertionSort _ _

theorem sortedTrials_length (e : spikingevent) :
    (sortedTrials e).length = (uniqTrials e).length := by
  unfold sortedTrials
  rw [List.length_map, argsort_length, firstTimes_length]

theorem sortedTrials_getD (e : spikingevent) (m : ℕ)
    (hm : m < (sortedTrials e).length) :
    ∃ j, j < (uniqTrials e).length ∧
      (sortedTrials e).getD m 0 = (uniqTrials e).getD j 0 ∧
      (firstTimes e).getD j 0 = firstOcc e.spikes ((sortedTrials e).getD m 0) ∧
      (npArgsort (firstTimes e)).getD m 0 = j := by
  have hmas : m < (npArgsort (firstTimes e)).length := by
    rw [argsort_length, firstTimes_length]
    rw [sortedTrials_length] at hm
    exact hm
  set j := (npArgsort (firstTimes e)).getD m 0 with hj
  have hjmem : j ∈ npArgsort (firstTimes e) := by
    rw [hj, List.getD_eq_getElem _ _ hmas]
    exact List.getElem_mem hmas
  have hjlt : j < (uniqTrials e).length := by
    have := argsort_mem_lt _ j hjmem
    rwa [firstTimes_length] at this
  have hgd : (sortedTrials e).getD m 0 = (uniqTrials e).getD j 0 := by
    unfold sortedTrials
    rw [getD_map _ _ m 0 0 hmas]
    have h1 : (trialIndices e).getD j 0 = (e.spikes.map Prod.snd).indexOf ((uniqTrials e).getD j 0) := by
      unfold trialIndices
      rw [getD_map _ _ j 0 0 hjlt]
    rw [h1]
    apply getD_indexOf_self
    apply (mem_uniqTrials e _).mp
    rw [List.getD_eq_getElem _ _ hjlt]
    exact List.getElem_mem hjlt
  refine ⟨j, hjlt, hgd, ?_, rfl⟩
  rw [hgd]
  exact firstTimes_getD e j hjlt

theorem sortedTrials_perm (e : spikingevent) : (sortedTrials e).Perm (uniqTrials e) := by
  unfold sortedTrials
  have h1 : ((npArgsort (firstTimes e)).map fun j =>
      (e.spikes.map Prod.snd).getD ((trialIndices e).getD j 0) 0).Perm
        ((List.range (firstTimes e).length).map fun j =>
          (e.spikes.map Prod.snd).getD ((trialIndices e).getD j 0) 0) :=
    (argsort_perm _).map _
  apply h1.trans
  rw [firstTimes_length]
  have h2 : ∀ j ∈ List.range (uniqTrials e).length,
      (e.spikes.map Prod.snd).getD ((trialIndices e).getD j 0) 0 =
        (uniqTrials e).getD j 0 := by
    intro j hj
    have hjlt : j < (uniqTrials e).length := List.mem_range.mp hj
    have h1b : (trialIndices e).getD j 0 =
        (e.spikes.map Prod.snd).indexOf ((uniqTrials e).getD j 0) := by
      unfold trialIndices
      rw [getD_map _ _ j 0 0 hjlt]
    rw [h1b]
    apply getD_indexOf_self
    apply (mem_uniqTrials e _).mp
    rw [List.getD_eq_getElem _ _ hjlt]
    exact List.getElem_mem hjlt
  rw [List.map_congr_left h2, map_getD_range_gen]

theorem nodup_sortedTrials (e : spikingevent) : (sortedTrials e).Nodup :=
  ((sortedTrials_perm e).nodup_iff).mpr (nodup_uniqTrials e)

theorem mem_sortedTrials (e : spikingevent) (v : ℤ) :
    v ∈ sortedTrials e ↔ v ∈ e.spikes.map Prod.snd := by
  rw [(sortedTrials_perm e).mem_iff]
  exact mem_uniqTrials e v

theorem sortedTrials_strictMono (e : spikingevent) (a b : ℤ)
    (ha : a ∈ sortedTrials e) (hb : b ∈ sortedTrials e)
    (hfo : firstOcc e.spikes a < firstOcc e.spikes b) :
    (sortedTrials e).indexOf a < (sortedTrials e).indexOf b := by
  set ma := (sortedTrials e).indexOf a with hma
  set mb := (sortedTrials e).indexOf b with hmb
  have hmaL : ma < (sortedTrials e).length := List.indexOf_lt_length.mpr ha
  have hmbL : mb < (sortedTrials e).length := List.indexOf_lt_length.mpr hb
  have hga : (sortedTrials e).getD ma 0 = a := getD_indexOf_self _ a ha
  have hgb : (sortedTrials e).getD mb 0 = b := getD_indexOf_self _ b hb
  obtain ⟨ja, hjaL, hgda, hfta, hasa⟩ := sortedTrials_getD e ma hmaL
  obtain ⟨jb, hjbL, hgdb, hftb, hasb⟩ := sortedTrials_getD e mb hmbL
  rw [hga] at hfta
  rw [hgb] at hftb
  by_contra hcon
  push_neg at hcon
  rcases Nat.lt_or_ge mb ma with hlt | hge
  · -- sortedness of the argsort index list gives firstOcc b ≤ firstOcc a
    have hmaAs : ma < (npArgsort (firstTimes e)).length := by
      rw [argsort_length, firstTimes_length, ← sortedTrials_length]
      exact hmaL
    have hmbAs : mb < (npArgsort (firstTimes e)).length := by
      rw [argsort_length, firstTimes_length, ← sortedTrials_length]
      exact hmbL
    have hpair := List.pairwise_iff_get.mp (argsort_sorted (firstTimes e))
      ⟨mb, hmbAs⟩ ⟨ma, hmaAs⟩ hlt
    have hgetb : (npArgsort (firstTimes e)).get ⟨mb, hmbAs⟩ = jb := by
      rw [← hasb, List.getD_eq_getElem _ _ hmbAs]
      rfl
    have hgeta : (npArgsort (firstTimes e)).get ⟨ma, hmaAs⟩ = ja := by
      rw [← hasa, List.getD_eq_getElem _ _ hmaAs]
      rfl
    rw [hgetb, hgeta, hftb, hfta] at hpair
    exact absurd hpair (not_le.mpr hfo)
  · have heq : ma = mb := le_antisymm hge hcon
    rw [heq, hgb] at hga
    rw [hga] at hfo
    exact absurd hfo (lt_irrefl _)

theorem map_zip_getD (orig acc : List (ℚ × ℤ)) (f : (ℚ × ℤ) × (ℚ × ℤ) → ℚ × ℤ)
    (p : ℕ) (hp : p < orig.length) (hpa : p < acc.length) :
    ((orig.zip acc).map f).getD p (0, 0) = f (orig.getD p (0, 0), acc.getD p (0, 0)) := by
  have hz : p < (orig.zip acc).length := by
    rw [List.length_zip]
    exact lt_min hp hpa
  have hm : p < ((orig.zip acc).map f).length := by simpa using hz
  rw [List.getD_eq_getElem _ _ hm, List.getElem_map, List.getElem_zip,
    List.getD_eq_getElem _ _ hp, List.getD_eq_getElem _ _ hpa]

theorem relabel_fold_length (orig : List (ℚ × ℤ)) (L : List (ℕ × ℤ)) :
    ∀ acc : List (ℚ × ℤ), acc.length = orig.length →
      (L.foldl
          (fun acc iv => (orig.zip acc).map fun oc =>
            if oc.1.2 = iv.2 then (oc.2.1, (iv.1 : ℤ) + 1) else oc.2) acc).length =
        orig.length := by
  induction L with
  | nil => intro acc h; exact h
  | cons iv tl ih =>
      intro acc h
      rw [List.foldl_cons]
      apply ih
      rw [List.length_map, List.length_zip, h, min_self]

theorem relabel_fold_getD (orig : List (ℚ × ℤ)) :
    ∀ (lst : List ℤ) (off : ℕ) (acc : List (ℚ × ℤ)),
      acc.length = orig.length → lst.Nodup →
      ∀ p, p < orig.length →
        (((List.range' off lst.length).zip lst).foldl
            (fun acc iv => (orig.zip acc).map fun oc =>
              if oc.1.2 = iv.2 then (oc.2.1, (iv.1 : ℤ) + 1) else oc.2) acc).getD p (0, 0) =
          if (orig.getD p (0, 0)).2 ∈ lst then
            ((acc.getD p (0, 0)).1,
              ((off + lst.indexOf (orig.getD p (0, 0)).2 : ℕ) : ℤ) + 1)
          else acc.getD p (0, 0) := by
  intro lst
  induction lst with
  | nil =>
      intro off acc hlen hnd p hp
      simp
  | cons v tl ih =>
      intro off acc hlen hnd p hp
      rw [List.length_cons, List.range'_succ, List.zip_cons_cons, List.foldl_cons]
      set acc1 := (orig.zip acc).map fun oc =>
        if oc.1.2 = v then (oc.2.1, (off : ℤ) + 1) else oc.2 with hacc1
      have hlenacc1 : acc1.length = orig.length := by
        rw [hacc1, List.length_map, List.length_zip, hlen, min_self]
      rw [ih (off + 1) acc1 hlenacc1 (List.nodup_cons.mp hnd).2 p hp]
      have hstep : acc1.getD p (0, 0) =
          if (orig.getD p (0, 0)).2 = v then ((acc.getD p (0, 0)).1, (off : ℤ) + 1)
          else acc.getD p (0, 0) := by
        rw [hacc1, map_zip_getD orig acc _ p hp (by omega)]
      by_cases h1 : (orig.getD p (0, 0)).2 = v
      · have hnotin : (orig.getD p (0, 0)).2 ∉ tl := by
          rw [h1]
          exact (List.nodup_cons.mp hnd).1
        rw [if_neg hnotin, hstep, if_pos h1]
        have hmem : (orig.getD p (0, 0)).2 ∈ v :: tl := by rw [h1]; exact List.mem_cons_self v tl
        rw [if_pos hmem]
        have hidx : (v :: tl).indexOf (orig.getD p (0, 0)).2 = 0 := by
          rw [h1, List.indexOf_cons]
          simp
        rw [hidx]
        simp
      · by_cases h2 : (orig.getD p (0, 0)).2 ∈ tl
        · rw [if_pos h2, hstep, if_neg h1]
          have hmem : (orig.getD p (0, 0)).2 ∈ v :: tl := List.mem_cons_of_mem v h2
          rw [if_pos hmem]
          have hidx : (v :: tl).indexOf (orig.getD p (0, 0)).2 =
              tl.indexOf (orig.getD p (0, 0)).2 + 1 := by
            rw [List.indexOf_cons]
            have : (v == (orig.getD p (0, 0)).2) = false := by
              rw [beq_eq_false_iff_ne]
              intro hc
              exact h1 hc.symm
            rw [this]
            simp
          rw [hidx]
          congr 1
          push_cast
          ring
        · rw [if_neg h2, hstep, if_neg h1]
          have hmem : (orig.getD p (0, 0)).2 ∉ v :: tl := by
            intro hc
            rcases List.mem_cons.mp hc with hc1 | hc1
            · exact h1 hc1
            · exact h2 hc1
          rw [if_neg hmem]

theorem sort_length (e : spikingevent) :
    (spikingevent.sort e).length = e.spikes.length := by
  unfold spikingevent.sort
  exact relabel_fold_length e.spikes _ e.spikes rfl

theorem sort_getD (e : spikingevent) (p : ℕ) (hp : p < e.spikes.length) :
    (spikingevent.sort e).getD p (0, 0) =
      ((e.spikes.getD p (0, 0)).1,
        ((sortedTrials e).indexOf ((e.spikes.getD p (0, 0)).2) : ℤ) + 1) := by
  unfold spikingevent.sort
  rw [List.range_eq_range']
  rw [relabel_fold_getD e.spikes (sortedTrials e) 0 e.spikes rfl (nodup_sortedTrials e) p hp]
  have hmem : (e.spikes.getD p (0, 0)).2 ∈ sortedTrials e := by
    apply (mem_sortedTrials e _).mpr
    apply List.mem_map.mpr
    refine ⟨e.spikes.getD p (0, 0), ?_, rfl⟩
    rw [List.getD_eq_getElem _ _ hp]
    exact List.getElem_mem hp
  rw [if_pos hmem]
  simp

theorem labelAt_eq (e : spikingevent) (p : ℕ) (hp : p < e.spikes.length) :
    labelAt e p = ((sortedTrials e).indexOf (trialAt e p) : ℤ) + 1 := by
  unfold labelAt trialAt
  have hps : p < (spikingevent.sort e).length := by rw [sort_length]; exact hp
  rw [getD_map Prod.snd _ p 0 (0, 0) hps, getD_map Prod.snd _ p 0 (0, 0) hp,
    sort_getD e p hp]

theorem trialAt_mem (e : spikingevent) (p : ℕ) (hp : p < e.spikes.length) :
    trialAt e p ∈ sortedTrials e := by
  apply (mem_sortedTrials e _).mpr
  unfold trialAt
  apply List.mem_map.mpr
  refine ⟨e.spikes.getD p (0, 0), ?_, ?_⟩
  · rw [List.getD_eq_getElem _ _ hp]
    exact List.getElem_mem hp
  · rw [getD_map Prod.snd _ p 0 (0, 0) hp]

/-- C7 (amended): `sort` returns a new spike array in which spike times are
unchanged and trial indices are remapped to the consecutive integers
1..(number of distinct trials), in ascending order of each trial's
first-occurrence spike time (rows of the same trial share a label, a strictly
earlier first-occurrence time forces a strictly smaller label, every label in
range is used, and a trial strictly earliest among all others is labelled 1);
this equals ascending order of time-to-first-spike exactly when each trial's
rows are listed in nondecreasing time order. -/
theorem sort_latency_first_occurrence (e : spikingevent) (p q : ℕ)
    (hp : p < e.spikes.length) (hq : q < e.spikes.length) :
    (spikingevent.sort e).map Prod.fst = e.spikes.map Prod.fst ∧
    (spikingevent.sort e).length = e.spikes.length ∧
    (trialAt e p = trialAt e q → labelAt e p = labelAt e q) ∧
    (firstOccTime e (trialAt e p) < firstOccTime e (trialAt e q) →
      labelAt e p < labelAt e q) ∧
    (1 ≤ labelAt e p ∧ labelAt e p ≤ numDistinctTrials e) ∧
    (∀ m : ℤ, 1 ≤ m → m ≤ numDistinctTrials e →
      ∃ j, j < e.spikes.length ∧ labelAt e j = m) ∧
    ((∀ j, j < e.spikes.length → trialAt e j ≠ trialAt e p →
        firstOccTime e (trialAt e p) < firstOccTime e (trialAt e j)) →
      labelAt e p = 1) := by
  have hklen : (sortedTrials e).length = (e.spikes.map Prod.snd).dedup.length := by
    rw [sortedTrials_length, length_uniqTrials]
  have hidxlt : ∀ r : ℕ, r < e.spikes.length →
      (sortedTrials e).indexOf (trialAt e r) < (sortedTrials e).length := fun r hr =>
    List.indexOf_lt_length.mpr (trialAt_mem e r hr)
  have htimes : (spikingevent.sort e).map Prod.fst = e.spikes.map Prod.fst := by
    apply List.ext_getElem
    · rw [List.length_map, List.length_map, sort_length]
    · intro i h1 h2
      rw [List.getElem_map, List.getElem_map]
      have hi : i < e.spikes.length := by simpa using h2
      have his : i < (spikingevent.sort e).length := by rw [sort_length]; exact hi
      rw [← List.getD_eq_getElem (spikingevent.sort e) (0, 0) his,
        ← List.getD_eq_getElem e.spikes (0, 0) hi, sort_getD e i hi]
  have honto : ∀ m : ℤ, 1 ≤ m → m ≤ numDistinctTrials e →
      ∃ j, j < e.spikes.length ∧ labelAt e j = m := by
    intro m hm1 hmk
    have hilt : (m - 1).toNat < (sortedTrials e).length := by
      unfold numDistinctTrials at hmk
      omega
    set v := (sortedTrials e).getD ((m - 1).toNat) 0 with hv
    have hvmem : v ∈ sortedTrials e := by
      rw [hv, List.getD_eq_getElem _ _ hilt]
      exact List.getElem_mem hilt
    have hvsp : v ∈ e.spikes.map Prod.snd := (mem_sortedTrials e v).mp hvmem
    obtain ⟨s, hs, hsv⟩ := List.mem_map.mp hvsp
    obtain ⟨j, hj, hjs⟩ := List.mem_iff_getElem.mp hs
    have htj : trialAt e j = v := by
      unfold trialAt
      rw [getD_map Prod.snd _ j 0 (0, 0) hj, List.getD_eq_getElem _ _ hj, hjs, hsv]
    refine ⟨j, hj, ?_⟩
    rw [labelAt_eq e j hj, htj, hv,
      nodup_indexOf_getD _ (nodup_sortedTrials e) _ hilt]
    omega
  refine ⟨htimes, sort_length e, ?_, ?_, ?_, honto, ?_⟩
  · intro h
    rw [labelAt_eq e p hp, labelAt_eq e q hq, h]
  · intro h
    rw [labelAt_eq e p hp, labelAt_eq e q hq]
    have := sortedTrials_strictMono e (trialAt e p) (trialAt e q)
      (trialAt_mem e p hp) (trialAt_mem e q hq) h
    omega
  · rw [labelAt_eq e p hp]
    have h1 := hidxlt p hp
    unfold numDistinctTrials
    omega
  · intro hminp
    have hk1 : 1 ≤ numDistinctTrials e := by
      have := hidxlt p hp
      unfold numDistinctTrials
      omega
    obtain ⟨j, hj, hjlab⟩ := honto 1 le_rfl hk1
    by_cases hjt : trialAt e j = trialAt e p
    · rw [labelAt_eq e p hp, ← hjt, ← labelAt_eq e j hj, hjlab]
    · have hlt := hminp j hj hjt
      have := sortedTrials_strictMono e (trialAt e p) (trialAt e j)
        (trialAt_mem e p hp) (trialAt_mem e j hj) hlt
      rw [labelAt_eq e j hj] at hjlab
      omega

/-- Witness for C7 at the event with rows [(1,3),(0,7),(2,3)], rows 0 and 1. -/
theorem sort_latency_first_occurrence_witness :
    (0 < (⟨0, 10, [(1, 3), (0, 7), (2, 3)]⟩ : spikingevent).spikes.length) ∧
    (1 < (⟨0, 10, [(1, 3), (0, 7), (2, 3)]⟩ : spikingevent).spikes.length) ∧
    ((spikingevent.sort ⟨0, 10, [(1, 3), (0, 7), (2, 3)]⟩).map Prod.fst =
        (⟨0, 10, [(1, 3), (0, 7), (2, 3)]⟩ : spikingevent).spikes.map Prod.fst ∧
      (spikingevent.sort ⟨0, 10, [(1, 3), (0, 7), (2, 3)]⟩).length =
        (⟨0, 10, [(1, 3), (0, 7), (2, 3)]⟩ : spikingevent).spikes.length ∧
      (trialAt ⟨0, 10, [(1, 3), (0, 7), (2, 3)]⟩ 0 = trialAt ⟨0, 10, [(1, 3), (0, 7), (2, 3)]⟩ 1 →
        labelAt ⟨0, 10, [(1, 3), (0, 7), (2, 3)]⟩ 0 = labelAt ⟨0, 10, [(1, 3), (0, 7), (2, 3)]⟩ 1) ∧
      (firstOccTime ⟨0, 10, [(1, 3), (0, 7), (2, 3)]⟩ (trialAt ⟨0, 10, [(1, 3), (0, 7), (2, 3)]⟩ 0) <
          firstOccTime ⟨0, 10, [(1, 3), (0, 7), (2, 3)]⟩ (trialAt ⟨0, 10, [(1, 3), (0, 7), (2, 3)]⟩ 1) →
        labelAt ⟨0, 10, [(1, 3), (0, 7), (2, 3)]⟩ 0 < labelAt ⟨0, 10, [(1, 3), (0, 7), (2, 3)]⟩ 1) ∧
      (1 ≤ labelAt ⟨0, 10, [(1, 3), (0, 7), (2, 3)]⟩ 0 ∧
        labelAt ⟨0, 10, [(1, 3), (0, 7), (2, 3)]⟩ 0 ≤ numDistinctTrials ⟨0, 10, [(1, 3), (0, 7), (2, 3)]⟩) ∧
      (∀ m : ℤ, 1 ≤ m → m ≤ numDistinctTrials ⟨0, 10, [(1, 3), (0, 7), (2, 3)]⟩ →
        ∃ j, j < (⟨0, 10, [(1, 3), (0, 7), (2, 3)]⟩ : spikingevent).spikes.length ∧
          labelAt ⟨0, 10, [(1, 3), (0, 7), (2, 3)]⟩ j = m) ∧
      ((∀ j, j < (⟨0, 10, [(1, 3), (0, 7), (2, 3)]⟩ : spikingevent).spikes.length →
          trialAt ⟨0, 10, [(1, 3), (0, 7), (2, 3)]⟩ j ≠ trialAt ⟨0, 10, [(1, 3), (0, 7), (2, 3)]⟩ 0 →
          firstOccTime ⟨0, 10, [(1, 3), (0, 7), (2, 3)]⟩ (trialAt ⟨0, 10, [(1, 3), (0, 7), (2, 3)]⟩ 0) <
            firstOccTime ⟨0, 10, [(1, 3), (0, 7), (2, 3)]⟩ (trialAt ⟨0, 10, [(1, 3), (0, 7), (2, 3)]⟩ j)) →
        labelAt ⟨0, 10, [(1, 3), (0, 7), (2, 3)]⟩ 0 = 1)) :=
  ⟨by decide, by decide, sort_latency_first_occurrence ⟨0, 10, [(1, 3), (0, 7), (2, 3)]⟩ 0 1 (by decide) (by decide)⟩

/-- C7 counterexample: in the event with rows [(5,1),(0,1),(1,2)], trial 1
owns the earliest spike (time 0, earlier than every spike of any other trial),
yet `sort` relabels trial 1 as 2 (its first-occurrence row has time 5, after
trial 2's time 1), so the trial with the earliest first spike is not
relabelled trial 1. -/
theorem sort_latency_counterexample :
    spikingevent.sort ⟨0, 10, [(5, 1), (0, 1), (1, 2)]⟩ = [(5, 2), (0, 2), (1, 1)] ∧
      (((0 : ℚ), (1 : ℤ)) ∈ ([(5, 1), (0, 1), (1, 2)] : List (ℚ × ℤ)) ∧
        ∀ s ∈ ([(5, 1), (0, 1), (1, 2)] : List (ℚ × ℤ)), s.2 ≠ 1 → (0 : ℚ) < s.1) ∧
      ¬ ((2 : ℤ) = 1) := by
  refine ⟨by decide, ⟨by decide, by decide⟩, by decide⟩

theorem arangeQ_binsize_ne_nil (tm : ℚ) (htm : 0 ≤ tm) :
    arangeQ 0 (tm + 1 / 100) (1 / 100) ≠ [] := by
  unfold arangeQ
  intro hc
  rw [List.map_eq_nil_iff, List.range_eq_nil] at hc
  have hx : (1 : ℚ) ≤ (tm + 1 / 100 - 0) / (1 / 100) := by
    rw [le_div_iff₀ (by norm_num : (0 : ℚ) < 1 / 100)]
    linarith
  have h2 : (1 : ℤ) ≤ ⌈(tm + 1 / 100 - 0) / (1 / 100)⌉ := by
    have := Int.le_ceil ((tm + 1 / 100 - 0) / (1 / 100))
    exact_mod_cast le_trans hx this
  omega

theorem arangeQ_binsize_length_ge3 (tm : ℚ) (htm : 1 ≤ tm) :
    3 ≤ (arangeQ 0 (tm + 1 / 100) (1 / 100)).length := by
  unfold arangeQ
  rw [List.length_map, List.length_range]
  have hx : (3 : ℚ) ≤ (tm + 1 / 100 - 0) / (1 / 100) := by
    rw [le_div_iff₀ (by norm_num : (0 : ℚ) < 1 / 100)]
    linarith
  have h2 : (3 : ℤ) ≤ ⌈(tm + 1 / 100 - 0) / (1 / 100)⌉ := by
    have := Int.le_ceil ((tm + 1 / 100 - 0) / (1 / 100))
    exact_mod_cast le_trans hx this
  omega

theorem dropLast_range (n : ℕ) : (List.range n).dropLast = List.range (n - 1) := by
  cases n with
  | zero => rfl
  | succ m =>
      rw [List.range_succ, List.dropLast_concat]
      rfl

theorem npDiff_progression (a st : ℚ) (m : ℕ) :
    npDiff ((List.range m).map fun (k : ℕ) => a + (k : ℚ) * st) =
      List.replicate (m - 1) st := by
  apply List.ext_getElem
  · unfold npDiff
    rw [List.length_zipWith, List.length_tail, List.length_replicate,
      List.length_map, List.length_range]
    omega
  · intro i h1 h2
    unfold npDiff at h1 ⊢
    have hlen : ((List.range m).map fun (k : ℕ) => a + (k : ℚ) * st).length = m := by
      rw [List.length_map, List.length_range]
    have hbound : i + 1 < m := by
      rw [List.length_zipWith, List.length_tail, hlen] at h1
      omega
    rw [List.getElem_zipWith, List.getElem_tail, List.getElem_replicate,
      List.getElem_map, List.getElem_map, List.getElem_range, List.getElem_range]
    push_cast
    ring

theorem npMean_replicate (m : ℕ) (x : ℚ) (hm : 0 < m) :
    npMean (List.replicate m x) = x := by
  unfold npMean
  rw [List.sum_replicate, List.length_replicate, nsmul_eq_mul]
  have hm2 : (m : ℚ) ≠ 0 := by exact_mod_cast Nat.pos_iff_ne_zero.mp hm
  field_simp

theorem progression_dropLast_shift (N : ℕ) (cc : ℚ) :
    (((List.range N).map fun (k : ℕ) => (0 : ℚ) + (k : ℚ) * (1 / 100)).dropLast.map
        fun t => t + cc) =
      (List.range (N - 1)).map fun (k : ℕ) => cc + (k : ℚ) * (1 / 100) := by
  rw [← List.map_dropLast, dropLast_range, List.map_map]
  apply List.map_congr_left
  intro k _
  simp only [Function.comp_apply]
  ring

theorem estfr_ok_of_uniform (m : ℕ) (hm : 2 ≤ m) (a : ℚ) (bspk : List ℚ)
    (hbs : bspk ≠ []) :
    ∃ r, estfr ((List.range m).map fun (k : ℕ) => a + (k : ℚ) * (1 / 100)) bspk (1 / 200) =
      Except.ok r := by
  have hdt : npMean (npDiff ((List.range m).map fun (k : ℕ) => a + (k : ℚ) * (1 / 100))) =
      1 / 100 := by
    rw [npDiff_progression, npMean_replicate _ _ (by omega)]
  unfold estfr
  dsimp only
  rw [hdt]
  have htau : arangeQ (-(5 * (1 / 200))) (5 * (1 / 200)) (1 / 100) ≠ [] := by
    unfold arangeQ
    intro hcc
    rw [List.map_eq_nil_iff, List.range_eq_nil] at hcc
    norm_num at hcc
  unfold convolveFull
  rw [if_neg ?hcond]
  case hcond =>
    rw [Bool.or_eq_true, not_or]
    constructor
    · rw [Bool.not_eq_true, List.isEmpty_eq_false, ne_eq, List.map_eq_nil_iff,
        List.map_eq_nil_iff]
      exact htau
    · rw [Bool.not_eq_true, List.isEmpty_eq_false, ne_eq, List.map_eq_nil_iff]
      exact hbs
  exact ⟨_, rfl⟩

theorem binspikes_ok_of_max (spkT : List ℚ) (c : ℚ) (mx : ℚ)
    (hmax : spkT.max? = some mx) (hpos : 0 ≤ mx) :
    binspikes spkT none (1 / 100) none c = Except.ok
      ((histogramBins spkT (arangeQ 0 (((⌈mx⌉ : ℤ) : ℚ) + 1 / 100) (1 / 100))).map
          fun (n : ℕ) => (n : ℚ) / c,
        (arangeQ 0 (((⌈mx⌉ : ℤ) : ℚ) + 1 / 100) (1 / 100)).dropLast.map fun t =>
          t + (1 / 2) *
            npMean (npDiff (arangeQ 0 (((⌈mx⌉ : ℤ) : ℚ) + 1 / 100) (1 / 100)))) := by
  unfold binspikes
  dsimp only
  rw [hmax]
  dsimp only [ofOption]
  have hne := arangeQ_binsize_ne_nil ((⌈mx⌉ : ℤ) : ℚ) (by positivity)
  unfold npHistogram
  dsimp only [Bind.bind, Except.bind]
  rw [if_neg (by simpa using hne)]

theorem detectevents_nil_threshold_aux (spk : List (ℚ × ℤ)) (mx : ℚ)
    (hmx : (spk.map Prod.fst).max? = some mx) (hpos : 0 < mx) :
    detectevents spk [] = Except.error PyErr.indexError := by
  have hspk : spk ≠ [] := by
    intro hc
    subst hc
    simp at hmx
  have hceil : (1 : ℤ) ≤ ⌈mx⌉ := Int.one_le_ceil_iff.mpr hpos
  have htm1 : (1 : ℚ) ≤ ((⌈mx⌉ : ℤ) : ℚ) := by exact_mod_cast hceil
  have hlen3 : 3 ≤ (arangeQ 0 (((⌈mx⌉ : ℤ) : ℚ) + 1 / 100) (1 / 100)).length :=
    arangeQ_binsize_length_ge3 _ htm1
  have htimeEq : arangeQ 0 (((⌈mx⌉ : ℤ) : ℚ) + 1 / 100) (1 / 100) =
      (List.range (arangeQ 0 (((⌈mx⌉ : ℤ) : ℚ) + 1 / 100) (1 / 100)).length).map
        fun (k : ℕ) => (0 : ℚ) + (k : ℚ) * (1 / 100) := by
    unfold arangeQ
    rw [List.length_map, List.length_range]
  cases hc : (spk.map Prod.snd).max? with
  | none =>
      rw [List.max?_eq_none_iff, List.map_eq_nil_iff] at hc
      exact absurd hc hspk
  | some c =>
      have hbspkne : ((histogramBins (spk.map Prod.fst)
          (arangeQ 0 (((⌈mx⌉ : ℤ) : ℚ) + 1 / 100) (1 / 100))).map
            fun (n : ℕ) => (n : ℚ) / (c : ℚ)) ≠ [] := by
        intro hcc
        have hl := congrArg List.length hcc
        rw [List.length_map, histogramBins_length, List.length_nil] at hl
        omega
      have htax : (arangeQ 0 (((⌈mx⌉ : ℤ) : ℚ) + 1 / 100) (1 / 100)).dropLast.map
            (fun t => t + (1 / 2) *
              npMean (npDiff (arangeQ 0 (((⌈mx⌉ : ℤ) : ℚ) + 1 / 100) (1 / 100)))) =
          (List.range ((arangeQ 0 (((⌈mx⌉ : ℤ) : ℚ) + 1 / 100) (1 / 100)).length - 1)).map
            fun (k : ℕ) => (1 / 2) *
                npMean (npDiff (arangeQ 0 (((⌈mx⌉ : ℤ) : ℚ) + 1 / 100) (1 / 100))) +
              (k : ℚ) * (1 / 100) := by
        set cc := (1 / 2) *
          npMean (npDiff (arangeQ 0 (((⌈mx⌉ : ℤ) : ℚ) + 1 / 100) (1 / 100))) with hccdef
        conv_lhs => rw [htimeEq]
        rw [progression_dropLast_shift]
      obtain ⟨r, hr⟩ := estfr_ok_of_uniform
        ((arangeQ 0 (((⌈mx⌉ : ℤ) : ℚ) + 1 / 100) (1 / 100)).length - 1) (by omega)
        ((1 / 2) * npMean (npDiff (arangeQ 0 (((⌈mx⌉ : ℤ) : ℚ) + 1 / 100) (1 / 100))))
        ((histogramBins (spk.map Prod.fst)
          (arangeQ 0 (((⌈mx⌉ : ℤ) : ℚ) + 1 / 100) (1 / 100))).map
            fun (n : ℕ) => (n : ℚ) / (c : ℚ)) hbspkne
      rw [← htax] at hr
      unfold detectevents
      rw [hc]
      dsimp only [ofOption, Bind.bind, Except.bind]
      rw [binspikes_ok_of_max (spk.map Prod.fst) (c : ℚ) mx hmx (le_of_lt hpos)]
      dsimp only
      rw [hr]
      rfl

/-- C8 (amended): detectevents performs no threshold validation and no code
path produces a ConfigurationError; with a malformed (here: empty) threshold
the call raises an IndexError at the point the threshold is first indexed —
after binning and rate estimation have executed — for every nonempty spike
train whose latest spike time is positive.  (When the latest spike time is
exactly 0 the time axis degenerates to a single point and the program fails
earlier, inside the rate estimation: np.convolve of the empty binned counts
raises a ValueError, which the model reproduces.) -/
theorem detectevents_malformed_threshold_index_failure (spk : List (ℚ × ℤ)) (mx : ℚ)
    (hmx : (spk.map Prod.fst).max? = some mx) (hpos : 0 < mx) :
    detectevents spk [] = Except.error PyErr.indexError :=
  detectevents_nil_threshold_aux spk mx hmx hpos

/-- Witness for C8 at the one-spike train [(1, 1)]. -/
theorem detectevents_malformed_threshold_index_failure_witness :
    (([((1 : ℚ), (1 : ℤ))].map Prod.fst).max? = some 1) ∧ ((0 : ℚ) < 1) ∧
      detectevents [(1, 1)] [] = Except.error PyErr.indexError :=
  ⟨rfl, by norm_num, detectevents_malformed_threshold_index_failure [(1, 1)] 1 rfl (by norm_num)⟩

/-- C8 counterexample: for the spike train [(1, 1)] and the malformed (empty)
threshold, detectevents fails with IndexError, not with the claimed
ConfigurationError (and only after binning and rate estimation have run, as
the proof of the underlying lemma traces). -/
theorem detectevents_malformed_threshold_counterexample :
    detectevents [(1, 1)] [] = Except.error PyErr.indexError ∧
      PyErr.indexError ≠ PyErr.configurationError :=
  ⟨detectevents_nil_threshold_aux [(1, 1)] 1 rfl (by norm_num), by decide⟩
